import Mathlib

/-!
Verification of the embedded mathematical-expression engine (Lepton) and the
`FunctionBasedPath` component of this repository.

The repository ships the engine's test `src/Vendors/lepton/test/testLepton.cpp`
and the header `src/OpenSim/Simulation/Model/FunctionBasedPath.h`; the engine
implementation itself is not among the provided sources, so the engine is
modelled from the specification (tokenizer, parser, expression tree, function
registry, evaluator, differentiator, simplifier).  Numeric values are modelled
by `ℚ`: exact rational arithmetic stands in for IEEE float64, with the usual
Lean junk-value conventions (division by zero is 0) where floating point would
produce `inf`/`NaN`.
-/

namespace Lepton

/-- Modelled from the spec (section 3): the unary operator kinds of an
expression node.  The grammar has a single unary operator, negation. -/
inductive UOp where
  | Negate
deriving DecidableEq, Repr

/-- Modelled from the spec (section 3): the binary operator kinds of an
expression node. -/
inductive BOp where
  | Add
  | Sub
  | Mul
  | Div
  | Pow
deriving DecidableEq, Repr

/-- Modelled from the spec (section 3): an expression-tree node.  `Constant`
holds a numeric value, `Variable` an opaque (possibly dotted) identifier,
`UnaryOp`/`BinaryOp` the operator applications, and `Call` a named function
call with an ordered argument list. -/
inductive Node where
  | Constant (value : ℚ)
  | Variable (name : String)
  | UnaryOp (op : UOp) (operand : Node)
  | BinaryOp (op : BOp) (left : Node) (right : Node)
  | Call (functionName : String) (arguments : List Node)

/-- Modelled from the spec (section 3): a custom function descriptor.  The
`derivative` field returns, for an argument index, a node template for the
partial derivative of the function with respect to that argument; in the
template, placeholder variable names `"#0"`, `"#1"`, … stand for
the actual argument subtrees. -/
structure FnDesc where
  arity : Nat
  eval : List ℚ → ℚ
  derivative : Nat → Node

/-- Modelled from the spec (sections 2 and 3): the custom function registry,
a read-only map from function name to descriptor. -/
def Registry : Type := String → Option FnDesc

/-- Modelled from the spec (section 3): an evaluation context, an immutable
mapping from variable name to numeric value. -/
def Context : Type := String → Option ℚ

/-- The empty evaluation context. -/
def emptyCtx : Context := fun _ => none

/-- Modelled from the spec (section 4.3): the `Pow` semantics.  A power with
an integer exponent is exact rational exponentiation (so `x^0 = 1` for every
`x`, matching `std::pow(x, 0) = 1`); a genuinely fractional exponent has in
general an irrational value, which `ℚ` cannot represent, and is modelled by
the junk value 0. -/
def qpow (a b : ℚ) : ℚ :=
  if b.den = 1 then a ^ b.num else 0

/-- Modelled from the spec (section 4.3): the arithmetic meaning of each
binary operator. -/
def applyBOp : BOp → ℚ → ℚ → ℚ
  | .Add, a, b => a + b
  | .Sub, a, b => a - b
  | .Mul, a, b => a * b
  | .Div, a, b => a / b
  | .Pow, a, b => qpow a b

/-- Modelled from the spec (sections 4.3 and 7): the single error kind raised
at evaluation time, an unbound variable, carrying the variable's name. -/
inductive EvalErr where
  | unboundVariable (name : String)
deriving DecidableEq, Repr

mutual

/-- Modelled from the spec (section 4.3): the evaluator.  A pure function of
the tree and the context; `Variable` looks its name up in the context and
fails with `UnboundVariableError` when absent; `Call` evaluates its arguments
left-to-right and then invokes the registered function's evaluate callback.
A call to an unregistered name cannot arise from parsing (parse-time
invariant, spec section 3); it is modelled as the junk value 0 so that the
evaluator's only error kind is the unbound variable, as the spec's error
taxonomy (section 7) states. -/
def evaluate (reg : Registry) (ctx : Context) : Node → Except EvalErr ℚ
  | .Constant c => .ok c
  | .Variable v =>
    match ctx v with
    | some x => .ok x
    | none => .error (.unboundVariable v)
  | .UnaryOp .Negate u => do
    let x ← evaluate reg ctx u
    return (-x)
  | .BinaryOp op l r => do
    let a ← evaluate reg ctx l
    let b ← evaluate reg ctx r
    return applyBOp op a b
  | .Call f args => do
    let vs ← evalArgs reg ctx args
    match reg f with
    | some d => return d.eval vs
    | none => return 0

/-- Left-to-right evaluation of an argument list. -/
def evalArgs (reg : Registry) (ctx : Context) : List Node → Except EvalErr (List ℚ)
  | [] => .ok []
  | a :: as => do
    let v ← evaluate reg ctx a
    let vs ← evalArgs reg ctx as
    return (v :: vs)

end

mutual

/-- The variables of a tree in depth-first, left-to-right order — the order
in which the evaluator encounters them. -/
def varsInOrder : Node → List String
  | .Constant _ => []
  | .Variable v => [v]
  | .UnaryOp _ u => varsInOrder u
  | .BinaryOp _ l r => varsInOrder l ++ varsInOrder r
  | .Call _ args => varsInOrderList args

/-- The variables of a list of trees in depth-first, left-to-right order. -/
def varsInOrderList : List Node → List String
  | [] => []
  | a :: as => varsInOrder a ++ varsInOrderList as

end

/-- The constant value of a node, when the node is a `Constant`. -/
def constOf : Node → Option ℚ
  | .Constant c => some c
  | _ => none

/-- The constant values of a list of nodes, when every node is a `Constant`. -/
def constsOf : List Node → Option (List ℚ)
  | [] => some []
  | a :: as =>
    match constOf a, constsOf as with
    | some v, some vs => some (v :: vs)
    | _, _ => none

/-- Modelled from the spec (section 4.5): the identity/zero rules for a binary
node whose left child is the constant `a` and whose right child `r` is not a
constant.  `Add`/`Sub` with a zero operand collapse to the other operand (or
its negation), `Mul` with a zero operand collapses to `Constant 0`, `Mul` with
a one operand collapses to the other operand. -/
def leftConstRule : BOp → ℚ → Node → Node
  | .Add, a, r => if a = 0 then r else .BinaryOp .Add (.Constant a) r
  | .Sub, a, r => if a = 0 then .UnaryOp .Negate r else .BinaryOp .Sub (.Constant a) r
  | .Mul, a, r =>
    if a = 0 then .Constant 0
    else if a = 1 then r else .BinaryOp .Mul (.Constant a) r
  | .Div, a, r => .BinaryOp .Div (.Constant a) r
  | .Pow, a, r => .BinaryOp .Pow (.Constant a) r

/-- Modelled from the spec (section 4.5): the identity/zero rules for a binary
node whose right child is the constant `b` and whose left child `l` is not a
constant.  Beyond the `Add`/`Sub`/`Mul` rules, `Pow(u, 1)` collapses to `u`
and `Pow(u, 0)` collapses to `Constant 1`. -/
def rightConstRule : BOp → Node → ℚ → Node
  | .Add, l, b => if b = 0 then l else .BinaryOp .Add l (.Constant b)
  | .Sub, l, b => if b = 0 then l else .BinaryOp .Sub l (.Constant b)
  | .Mul, l, b =>
    if b = 0 then .Constant 0
    else if b = 1 then l else .BinaryOp .Mul l (.Constant b)
  | .Div, l, b => .BinaryOp .Div l (.Constant b)
  | .Pow, u, b =>
    if b = 0 then .Constant 1
    else if b = 1 then u else .BinaryOp .Pow u (.Constant b)

/-- One simplification step for a binary node (children assumed already
simplified): constant folding when both children are constants, otherwise the
identity/zero rules. -/
def simplifyBin (op : BOp) (l r : Node) : Node :=
  match constOf l, constOf r with
  | some a, some b => .Constant (applyBOp op a b)
  | some a, none => leftConstRule op a r
  | none, some b => rightConstRule op l b
  | none, none => .BinaryOp op l r

/-- Modelled from the spec (section 4.5): the root rewrite applied to a node
whose children have already been simplified — constant folding (a `Negate`,
`BinaryOp` or registered `Call` whose children are all constants is folded by
evaluating it) and the identity/zero collapses. -/
def simplifyRoot (reg : Registry) : Node → Node
  | .UnaryOp .Negate u =>
    match constOf u with
    | some c => .Constant (-c)
    | none => .UnaryOp .Negate u
  | .BinaryOp op l r => simplifyBin op l r
  | .Call f args =>
    match reg f, constsOf args with
    | some d, some vs => .Constant (d.eval vs)
    | _, _ => .Call f args
  | t => t

mutual

/-- Modelled from the spec (section 4.5): the simplifier.  A total,
bottom-up rewrite: children are simplified first, then the root rules
(`simplifyRoot`) are applied. -/
def simplify (reg : Registry) : Node → Node
  | .Constant c => .Constant c
  | .Variable v => .Variable v
  | .UnaryOp op u => simplifyRoot reg (.UnaryOp op (simplify reg u))
  | .BinaryOp op l r => simplifyRoot reg (.BinaryOp op (simplify reg l) (simplify reg r))
  | .Call f args => simplifyRoot reg (.Call f (simplifyList reg args))

/-- Pointwise simplification of an argument list. -/
def simplifyList (reg : Registry) : List Node → List Node
  | [] => []
  | a :: as => simplify reg a :: simplifyList reg as

end

/-- The placeholder variable name standing for argument `i` in a function
descriptor's derivative template. -/
def placeholder (i : Nat) : String := "#" ++ toString i

mutual

/-- Substitution of the actual argument subtrees for the placeholder
argument references of a derivative template. -/
def substArgs (args : List Node) : Node → Node
  | .Constant c => .Constant c
  | .Variable v =>
    match (List.range args.length).findIdx? (fun i => placeholder i = v) with
    | some i => args.getD i (.Variable v)
    | none => .Variable v
  | .UnaryOp op u => .UnaryOp op (substArgs args u)
  | .BinaryOp op l r => .BinaryOp op (substArgs args l) (substArgs args r)
  | .Call f as => .Call f (substArgsList args as)

/-- Pointwise substitution over a list of template nodes. -/
def substArgsList (args : List Node) : List Node → List Node
  | [] => []
  | a :: as => substArgs args a :: substArgsList args as

end

/-- The sum of a list of nodes as a left-leaning `Add` tree; the empty sum is
`Constant 0`. -/
def sumNodes : List Node → Node
  | [] => .Constant 0
  | [t] => t
  | t :: ts => .BinaryOp .Add t (sumNodes ts)

/-- Modelled from the spec (section 4.4): the chain rule for a registered
call — the sum over each argument index `i` of the descriptor's derivative
template for `i` (with the actual arguments substituted for its placeholders)
multiplied by the derivative of argument `i`. -/
def chainRuleSum (d : FnDesc) (args dargs : List Node) : Node :=
  sumNodes ((List.range args.length).map
    (fun i => .BinaryOp .Mul (substArgs args (d.derivative i))
                             (dargs.getD i (.Constant 0))))

mutual

/-- Modelled from the spec (section 4.4): the per-node differentiation rules
with respect to the variable named `x`.  A call to an unregistered name
cannot arise from parsing (parse-time invariant, spec section 3); it is
modelled as differentiating to `Constant 0`. -/
def diffRaw (reg : Registry) (x : String) : Node → Node
  | .Constant _ => .Constant 0
  | .Variable v => if v = x then .Constant 1 else .Constant 0
  | .UnaryOp .Negate u => .UnaryOp .Negate (diffRaw reg x u)
  | .BinaryOp .Add l r => .BinaryOp .Add (diffRaw reg x l) (diffRaw reg x r)
  | .BinaryOp .Sub l r => .BinaryOp .Sub (diffRaw reg x l) (diffRaw reg x r)
  | .BinaryOp .Mul l r =>
    .BinaryOp .Add (.BinaryOp .Mul (diffRaw reg x l) r)
                   (.BinaryOp .Mul l (diffRaw reg x r))
  | .BinaryOp .Div l r =>
    .BinaryOp .Div
      (.BinaryOp .Sub (.BinaryOp .Mul (diffRaw reg x l) r)
                      (.BinaryOp .Mul l (diffRaw reg x r)))
      (.BinaryOp .Mul r r)
  | .BinaryOp .Pow u (.Constant c) =>
    .BinaryOp .Mul
      (.BinaryOp .Mul (.Constant c) (.BinaryOp .Pow u (.Constant (c - 1))))
      (diffRaw reg x u)
  | .BinaryOp .Pow u v =>
    .BinaryOp .Mul (.BinaryOp .Pow u v)
      (.BinaryOp .Add
        (.BinaryOp .Mul (diffRaw reg x v) (.Call "log" [u]))
        (.BinaryOp .Mul v (.BinaryOp .Div (diffRaw reg x u) u)))
  | .Call f args =>
    match reg f with
    | some d => chainRuleSum d args (diffArgsList reg x args)
    | none => .Constant 0

/-- Derivatives of each node of an argument list. -/
def diffArgsList (reg : Registry) (x : String) : List Node → List Node
  | [] => []
  | a :: as => diffRaw reg x a :: diffArgsList reg x as

end

/-- Modelled from the spec (section 4.4): the differentiator.  The raw
per-node rules build the exact symbolic derivative, and the result is passed
through the simplifier before being returned. -/
def differentiate (reg : Registry) (t : Node) (x : String) : Node :=
  simplify reg (diffRaw reg x t)

/-- Modelled from the spec (section 3): a token produced by the tokenizer. -/
inductive Token where
  | Number (value : ℚ)
  | Identifier (text : String)
  | Operator (symbol : Char)
  | LeftParen
  | RightParen
  | Comma
  | End
deriving DecidableEq, Repr

/-- Modelled from the spec (section 7): the error taxonomy of the tokenizer
and the parser.  `lexError` reports the offending character and its offset,
`unknownFunction` and `arityMismatch` are the two distinct parse-time
function-call resolution failures. -/
inductive ParseError where
  | lexError (offendingChar : Char) (offset : Nat)
  | syntaxError (message : String)
  | unknownFunction (name : String)
  | arityMismatch (name : String) (expected : Nat) (actual : Nat)
deriving DecidableEq, Repr

/-- The numeric value of a list of decimal digit characters. -/
def digitsToNat (ds : List Char) : Nat :=
  ds.foldl (fun a c => 10 * a + (c.toNat - 48)) 0

/-- Whether a character may continue an identifier: letters, digits,
underscore and dot (dotted paths are one opaque identifier). -/
def isIdentCont (c : Char) : Bool :=
  c.isAlphanum || c = '_' || c = '.'

/-- Lexing an optional exponent part (`e`/`E`, optional sign, digits) after a
number's mantissa, scaling the mantissa accordingly. -/
def lexExponent (mantissa : ℚ) (cs : List Char) : ℚ × List Char :=
  match cs with
  | e :: cs3 =>
    if e = 'e' || e = 'E' then
      let signPair : ℤ × List Char :=
        match cs3 with
        | '+' :: cs4 => (1, cs4)
        | '-' :: cs4 => (-1, cs4)
        | _ => (1, cs3)
      let expDigits := signPair.2.takeWhile Char.isDigit
      (mantissa * (10 : ℚ) ^ (signPair.1 * (digitsToNat expDigits : ℤ)),
        signPair.2.dropWhile Char.isDigit)
    else (mantissa, cs)
  | [] => (mantissa, [])

/-- Modelled from the spec (section 4.1): lexing one decimal number (with
optional fraction and exponent) from the head of the character list, returning
its value and the unconsumed characters. -/
def lexNumber (cs : List Char) : ℚ × List Char :=
  let intPart := cs.takeWhile Char.isDigit
  let rest1 := cs.dropWhile Char.isDigit
  match rest1 with
  | '.' :: cs2 =>
    let fracDigits := cs2.takeWhile Char.isDigit
    lexExponent
      ((digitsToNat intPart : ℚ)
        + (digitsToNat fracDigits : ℚ) / ((10 : ℚ) ^ fracDigits.length))
      (cs2.dropWhile Char.isDigit)
  | _ => lexExponent (digitsToNat intPart : ℚ) rest1

/-- Modelled from the spec (section 4.1): the tokenizer loop.  One token is
lexed per step; whitespace is skipped; an unrecognized character fails with
`LexError` carrying the character and its offset; an explicit `End` token
terminates the stream.  `fuel` bounds the recursion and is sized by the
caller so that it never runs out (every step consumes at least one
character). -/
def tokenizeAux : Nat → List Char → Nat → Except ParseError (List Token)
  | 0, _, _ => .error (.syntaxError "lexer fuel exhausted")
  | fuel + 1, cs, pos =>
    match cs with
    | [] => .ok [.End]
    | c :: rest =>
      if c = ' ' || c = '\t' || c = '\n' || c = '\r' then
        tokenizeAux fuel rest (pos + 1)
      else if c.isDigit then
        match lexNumber (c :: rest) with
        | (v, rest2) =>
          (tokenizeAux fuel rest2 (pos + (rest.length + 1 - rest2.length))).map
            (fun ts => .Number v :: ts)
      else if c.isAlpha || c = '_' then
        let ident := (c :: rest).takeWhile isIdentCont
        (tokenizeAux fuel ((c :: rest).dropWhile isIdentCont)
            (pos + ident.length)).map
          (fun ts => .Identifier (String.mk ident) :: ts)
      else if c = '+' || c = '-' || c = '*' || c = '/' || c = '^' then
        (tokenizeAux fuel rest (pos + 1)).map (fun ts => .Operator c :: ts)
      else if c = '(' then
        (tokenizeAux fuel rest (pos + 1)).map (fun ts => .LeftParen :: ts)
      else if c = ')' then
        (tokenizeAux fuel rest (pos + 1)).map (fun ts => .RightParen :: ts)
      else if c = ',' then
        (tokenizeAux fuel rest (pos + 1)).map (fun ts => .Comma :: ts)
      else .error (.lexError c pos)

/-- Modelled from the spec (section 4.1): `tokenize(text)`, a deterministic
single left-to-right pass over the input characters. -/
def tokenize (text : String) : Except ParseError (List Token) :=
  tokenizeAux (text.length + 1) text.data 0

/-- The binding strength of a binary operator character: `+ -` are weakest,
`* /` bind tighter, `^` tightest. -/
def precOf (c : Char) : Nat :=
  if c = '+' || c = '-' then 1
  else if c = '*' || c = '/' then 2
  else if c = '^' then 3
  else 0

/-- The binary operator named by an operator character. -/
def bopOf (c : Char) : BOp :=
  if c = '+' then .Add
  else if c = '-' then .Sub
  else if c = '*' then .Mul
  else if c = '/' then .Div
  else .Pow

/-- Modelled from the spec (section 4.2): function-call resolution at parse
time.  The name is looked up in the registry — absence is
`UnknownFunctionError`; an argument count different from the registered arity
is `ArityMismatchError`. -/
def resolveCall (reg : Registry) (name : String) (args : List Node) :
    Except ParseError Node :=
  match reg name with
  | none => .error (.unknownFunction name)
  | some d =>
    if d.arity = args.length then .ok (.Call name args)
    else .error (.arityMismatch name d.arity args.length)

mutual

/-- Modelled from the spec (section 4.2): precedence-climbing parse of an
expression whose binary operators all bind at least as tightly as `minPrec`.
`fuel` bounds the recursion depth and is sized by the caller so that it never
runs out. -/
def parseExpr (reg : Registry) : Nat → Nat → List Token →
    Except ParseError (Node × List Token)
  | 0, _, _ => .error (.syntaxError "parser fuel exhausted")
  | fuel + 1, minPrec, ts =>
    (parsePrimary reg fuel ts).bind
      (fun lt => parseBinOps reg fuel minPrec lt.1 lt.2)

/-- The binary-operator loop of precedence climbing: while the next token is
a binary operator binding at least as tightly as `minPrec`, parse its right
operand (`^` is right-associative, `+ - * /` are left-associative) and extend
the left-hand side. -/
def parseBinOps (reg : Registry) : Nat → Nat → Node → List Token →
    Except ParseError (Node × List Token)
  | 0, _, _, _ => .error (.syntaxError "parser fuel exhausted")
  | fuel + 1, minPrec, lhs, ts =>
    match ts with
    | .Operator c :: rest =>
      if minPrec ≤ precOf c then
        (parseExpr reg fuel (if c = '^' then precOf c else precOf c + 1) rest).bind
          (fun rt => parseBinOps reg fuel minPrec (.BinaryOp (bopOf c) lhs rt.1) rt.2)
      else .ok (lhs, ts)
    | _ => .ok (lhs, ts)

/-- Modelled from the spec (section 4.2): a primary expression — a number
literal, a variable name, a unary minus applied to a primary expression, a
parenthesized expression, or a function call resolved against the registry. -/
def parsePrimary (reg : Registry) : Nat → List Token →
    Except ParseError (Node × List Token)
  | 0, _ => .error (.syntaxError "parser fuel exhausted")
  | fuel + 1, ts =>
    match ts with
    | .Number v :: rest => .ok (.Constant v, rest)
    | .Operator '-' :: rest =>
      (parsePrimary reg fuel rest).map (fun ut => (.UnaryOp .Negate ut.1, ut.2))
    | .Identifier name :: .LeftParen :: .RightParen :: rest =>
      (resolveCall reg name []).map (fun node => (node, rest))
    | .Identifier name :: .LeftParen :: rest =>
      (parseArgList reg fuel rest).bind
        (fun at1 =>
          match at1.2 with
          | .RightParen :: rest2 =>
            (resolveCall reg name at1.1).map (fun node => (node, rest2))
          | _ => .error (.syntaxError "expected right parenthesis after arguments"))
    | .Identifier name :: rest => .ok (.Variable name, rest)
    | .LeftParen :: rest =>
      (parseExpr reg fuel 1 rest).bind
        (fun et =>
          match et.2 with
          | .RightParen :: rest2 => .ok (et.1, rest2)
          | _ => .error (.syntaxError "expected right parenthesis"))
    | _ => .error (.syntaxError "expected primary expression")

/-- A comma-separated list of argument expressions. -/
def parseArgList (reg : Registry) : Nat → List Token →
    Except ParseError (List Node × List Token)
  | 0, _ => .error (.syntaxError "parser fuel exhausted")
  | fuel + 1, ts =>
    (parseExpr reg fuel 1 ts).bind
      (fun et =>
        match et.2 with
        | .Comma :: rest =>
          (parseArgList reg fuel rest).map (fun at1 => (et.1 :: at1.1, at1.2))
        | _ => .ok ([et.1], et.2))

end

/-- Parse a complete token stream: one expression followed by the `End`
token; anything else is trailing input, a `SyntaxError`. -/
def parseTokens (reg : Registry) (ts : List Token) : Except ParseError Node :=
  (parseExpr reg (3 * ts.length + 3) 1 ts).bind
    (fun et =>
      match et.2 with
      | [.End] => .ok et.1
      | _ => .error (.syntaxError "unexpected trailing tokens"))

/-- Modelled from the spec (section 4.2): `parse(text)` — tokenize, then a
recursive-descent parse of the whole token sequence. -/
def parse (reg : Registry) (text : String) : Except ParseError Node :=
  match tokenize text with
  | .error e => .error e
  | .ok ts => parseTokens reg ts

/-- Modelled from the spec (sections 4.3 and 8) and the repository test
`testLepton.cpp`, which calls `sqrt` without registering anything: the numeric
square root.  Over `ℚ` the exact rational square root is returned when it
exists, and the junk value 0 stands in for the irrational (or complex) results
that float64 would approximate (or turn into `NaN`). -/
def qsqrt (x : ℚ) : ℚ :=
  if 0 ≤ x ∧ Nat.sqrt x.num.toNat * Nat.sqrt x.num.toNat = x.num.toNat
      ∧ Nat.sqrt x.den * Nat.sqrt x.den = x.den then
    (Nat.sqrt x.num.toNat : ℚ) / (Nat.sqrt x.den : ℚ)
  else 0

/-- The descriptor of the built-in `sqrt` function: arity 1, numeric
evaluation by `qsqrt`, and the symbolic derivative template
`1 / (2 * sqrt(#0))`. -/
def sqrtDesc : FnDesc where
  arity := 1
  eval := fun vs => qsqrt (vs.headD 0)
  derivative := fun _ =>
    .BinaryOp .Div (.Constant 1)
      (.BinaryOp .Mul (.Constant 2) (.Call "sqrt" [.Variable (placeholder 0)]))

/-- The standard registry used by the repository test: it provides `sqrt`. -/
def stdReg : Registry := fun name => if name = "sqrt" then some sqrtDesc else none

/-- The composition the repository test exercises
(`Lepton::Parser::parse(text).evaluate(context)`): parse, then evaluate,
`none` on either failure. -/
def parseAndEvaluate (reg : Registry) (text : String) (ctx : Context) : Option ℚ :=
  match parse reg text with
  | .error _ => none
  | .ok t =>
    match evaluate reg ctx t with
    | .error _ => none
    | .ok q => some q

/-- The context binding `x` to 9, as in the repository test. -/
def ctxX9 : Context := fun v => if v = "x" then some 9 else none

/-- The context binding `x` to 0 (exercises the `0^0` corner of the
`Pow(u, 0)` collapse). -/
def ctxX0 : Context := fun v => if v = "x" then some 0 else none

/-- The tree `x^0`. -/
def powX0 : Node := .BinaryOp .Pow (.Variable "x") (.Constant 0)

/-- The tree of `parse "x+1"`. -/
def xPlusOne : Node := .BinaryOp .Add (.Variable "x") (.Constant 1)

end Lepton

namespace OpenSim

/-- Modelled from the spec: an `OpenSim::Function` of `n` real arguments
together with its partial derivatives (`calcValue`/`calcDerivative`),
as used by `FunctionBasedPath`. -/
structure SimFunction (n : Nat) where
  eval : (Fin n → ℚ) → ℚ
  deriv : Fin n → (Fin n → ℚ) → ℚ

/-- Modelled from the spec: the slice of `SimTK::State` a `FunctionBasedPath`
reads — the values `q` and speeds `u` of its `n` coordinates, in the order of
the `coordinates` property. -/
structure SimState (n : Nat) where
  q : Fin n → ℚ
  u : Fin n → ℚ

/-- From `src/OpenSim/Simulation/Model/FunctionBasedPath.h`: the properties of
a `FunctionBasedPath` over `n` coordinates — the coordinate names, the
required `length_function`, the optional list `moment_arm_functions` (empty
when not provided), and the optional `speed_function` (whose arguments are
the coordinate values followed by the coordinate speeds). -/
structure FunctionBasedPath (n : Nat) where
  coordinates : Fin n → String
  length_function : SimFunction n
  moment_arm_functions : List (SimFunction n)
  speed_function : Option (SimFunction (n + n))

/-- The coordinate values followed by the coordinate speeds, the argument
vector of a `speed_function`. -/
def qAndU {n : Nat} (s : SimState n) : Fin (n + n) → ℚ := fun i =>
  if h : (i : Nat) < n then s.q ⟨i, h⟩
  else s.u ⟨(i : Nat) - n, by omega⟩

/-- Modelled from the spec (header documentation, lines 52-56): the moment
arms.  When `moment_arm_functions` is not provided (empty), the moment arm
for a coordinate is the derivative of the length function with respect to
that coordinate's value; otherwise it is the value of that coordinate's
moment arm function. -/
def computeMomentArms {n : Nat} (p : FunctionBasedPath n) (s : SimState n) :
    Fin n → ℚ := fun i =>
  if p.moment_arm_functions.isEmpty then
    p.length_function.deriv i s.q
  else
    ((p.moment_arm_functions[(i : Nat)]?).map (fun f => f.eval s.q)).getD 0

/-- Modelled from the spec: `computeMomentArm(state, coord)` — the moment arm
of one coordinate. -/
def computeMomentArm {n : Nat} (p : FunctionBasedPath n) (s : SimState n)
    (coord : Fin n) : ℚ :=
  computeMomentArms p s coord

/-- Modelled from the spec (header documentation, lines 54-61):
`getLengtheningSpeed(state)`.  When a `speed_function` is provided it is
evaluated on the coordinate values and speeds; otherwise the speed is the dot
product of the moment arms with the coordinate speeds (chain rule). -/
def getLengtheningSpeed {n : Nat} (p : FunctionBasedPath n) (s : SimState n) : ℚ :=
  match p.speed_function with
  | some f => f.eval (qAndU s)
  | none => ∑ i : Fin n, computeMomentArms p s i * s.u i

/-- From `src/OpenSim/Simulation/Model/FunctionBasedPath.h`, line 151:
`bool isVisualPath() const override { return false; }`. -/
def isVisualPath {n : Nat} (_p : FunctionBasedPath n) : Bool := false

/-- A concrete one-coordinate length function, `l(q) = q^2` with derivative
`2q`, for witnesses. -/
def lenFnEx : SimFunction 1 where
  eval := fun q => q 0 * q 0
  deriv := fun _ q => 2 * q 0

/-- A concrete `FunctionBasedPath` with no moment-arm functions and no speed
function. -/
def pathEx : FunctionBasedPath 1 where
  coordinates := fun _ => "q0"
  length_function := lenFnEx
  moment_arm_functions := []
  speed_function := none

/-- A concrete state: `q = 3`, `u = 5`. -/
def stateEx : SimState 1 where
  q := fun _ => 3
  u := fun _ => 5

/-- A concrete one-coordinate moment-arm function, `r(q) = q + 1`, for
witnesses. -/
def maFnEx : SimFunction 1 where
  eval := fun q => q 0 + 1
  deriv := fun _ _ => 1

/-- A concrete `FunctionBasedPath` with a moment-arm function provided but no
speed function. -/
def pathEx2 : FunctionBasedPath 1 where
  coordinates := fun _ => "q0"
  length_function := lenFnEx
  moment_arm_functions := [maFnEx]
  speed_function := none

end OpenSim

namespace Lepton

/-! ### Basic lemmas -/

lemma node_strong_ind (P : Node → Prop)
    (ih : ∀ t, (∀ s, sizeOf s < sizeOf t → P s) → P t) : ∀ t, P t := by
  have key : ∀ n, ∀ t : Node, sizeOf t < n → P t := by
    intro n
    induction n with
    | zero => intro t h; omega
    | succ n ihn => exact fun t h => ih t (fun s hs => ihn s (by omega))
  exact fun t => key (sizeOf t + 1) t (by omega)

lemma sizeOf_mem_args {a : Node} {args : List Node} (h : a ∈ args) (f : String) :
    sizeOf a < sizeOf (Node.Call f args) := by
  have h1 := List.sizeOf_lt_of_mem h
  simp only [Node.Call.sizeOf_spec]
  omega

lemma constOf_eq_some {t : Node} {a : ℚ} : constOf t = some a ↔ t = .Constant a := by
  cases t <;> simp [constOf]

@[simp] lemma constOf_constant (c : ℚ) : constOf (.Constant c) = some c := rfl

@[simp] lemma simplify_constant (reg : Registry) (c : ℚ) :
    simplify reg (.Constant c) = .Constant c := by
  simp [simplify]

@[simp] lemma simplify_variable (reg : Registry) (v : String) :
    simplify reg (.Variable v) = .Variable v := by
  simp [simplify]

lemma simplify_unary (reg : Registry) (op : UOp) (u : Node) :
    simplify reg (.UnaryOp op u) = simplifyRoot reg (.UnaryOp op (simplify reg u)) := by
  simp [simplify]

lemma simplify_binary (reg : Registry) (op : BOp) (l r : Node) :
    simplify reg (.BinaryOp op l r)
      = simplifyRoot reg (.BinaryOp op (simplify reg l) (simplify reg r)) := by
  simp [simplify]

lemma simplify_call (reg : Registry) (f : String) (args : List Node) :
    simplify reg (.Call f args) = simplifyRoot reg (.Call f (simplifyList reg args)) := by
  simp [simplify]

@[simp] lemma simplifyList_nil (reg : Registry) : simplifyList reg [] = [] := by
  simp [simplifyList]

@[simp] lemma simplifyList_cons (reg : Registry) (a : Node) (as : List Node) :
    simplifyList reg (a :: as) = simplify reg a :: simplifyList reg as := by
  simp [simplifyList]

lemma simplifyRoot_negate_of_constOf_none (reg : Registry) {u : Node}
    (h : constOf u = none) : simplifyRoot reg (.UnaryOp .Negate u) = .UnaryOp .Negate u := by
  simp [simplifyRoot, h]

lemma simplifyRoot_binary (reg : Registry) (op : BOp) (l r : Node) :
    simplifyRoot reg (.BinaryOp op l r) = simplifyBin op l r := by
  simp [simplifyRoot]

/-! ### Idempotence of the simplifier -/

lemma simplify_negate_of_constOf_none (reg : Registry) {r : Node}
    (hr : simplify reg r = r) (hcr : constOf r = none) :
    simplify reg (.UnaryOp .Negate r) = .UnaryOp .Negate r := by
  rw [simplify_unary, hr, simplifyRoot_negate_of_constOf_none reg hcr]

lemma simplify_leftConstRule (reg : Registry) (op : BOp) (a : ℚ) {r : Node}
    (hr : simplify reg r = r) (hcr : constOf r = none) :
    simplify reg (leftConstRule op a r) = leftConstRule op a r := by
  have hbin : ∀ o : BOp, simplify reg (.BinaryOp o (.Constant a) r)
      = simplifyBin o (.Constant a) r := by
    intro o
    rw [simplify_binary, simplify_constant, hr, simplifyRoot_binary]
  cases op with
  | Add =>
    by_cases ha : a = 0 <;>
      simp [leftConstRule, ha, hbin, simplifyBin, hcr, hr]
  | Sub =>
    by_cases ha : a = 0
    · simp only [leftConstRule, if_pos ha]
      exact simplify_negate_of_constOf_none reg hr hcr
    · simp [leftConstRule, ha, hbin, simplifyBin, hcr]
  | Mul =>
    by_cases ha : a = 0
    · simp [leftConstRule, ha]
    · by_cases ha1 : a = 1 <;>
        simp [leftConstRule, ha, ha1, hbin, simplifyBin, hcr, hr]
  | Div => simp [leftConstRule, hbin, simplifyBin, hcr]
  | Pow => simp [leftConstRule, hbin, simplifyBin, hcr]

lemma simplify_rightConstRule (reg : Registry) (op : BOp) (b : ℚ) {l : Node}
    (hl : simplify reg l = l) (hcl : constOf l = none) :
    simplify reg (rightConstRule op l b) = rightConstRule op l b := by
  have hbin : ∀ o : BOp, simplify reg (.BinaryOp o l (.Constant b))
      = simplifyBin o l (.Constant b) := by
    intro o
    rw [simplify_binary, simplify_constant, hl, simplifyRoot_binary]
  cases op with
  | Add =>
    by_cases hb : b = 0 <;>
      simp [rightConstRule, hb, hbin, simplifyBin, hcl, hl]
  | Sub =>
    by_cases hb : b = 0 <;>
      simp [rightConstRule, hb, hbin, simplifyBin, hcl, hl]
  | Mul =>
    by_cases hb : b = 0
    · simp [rightConstRule, hb]
    · by_cases hb1 : b = 1 <;>
        simp [rightConstRule, hb, hb1, hbin, simplifyBin, hcl, hl]
  | Div => simp [rightConstRule, hbin, simplifyBin, hcl]
  | Pow =>
    by_cases hb : b = 0
    · simp [rightConstRule, hb]
    · by_cases hb1 : b = 1 <;>
        simp [rightConstRule, hb, hb1, hbin, simplifyBin, hcl, hl]

lemma simplifyList_idem_of (reg : Registry) {args : List Node}
    (h : ∀ a ∈ args, simplify reg (simplify reg a) = simplify reg a) :
    simplifyList reg (simplifyList reg args) = simplifyList reg args := by
  induction args with
  | nil => simp
  | cons a as iha =>
    simp only [simplifyList_cons]
    rw [h a (by simp), iha (fun b hb => h b (by simp [hb]))]

/-- The simplifier is idempotent. -/
lemma simplify_idem (reg : Registry) : ∀ t : Node,
    simplify reg (simplify reg t) = simplify reg t := by
  apply node_strong_ind
  intro t ih
  cases t with
  | Constant c => simp
  | Variable v => simp
  | UnaryOp op u =>
    cases op
    have hu : simplify reg (simplify reg u) = simplify reg u := by
      apply ih
      simp only [Node.UnaryOp.sizeOf_spec]
      omega
    rw [simplify_unary]
    rcases hc : constOf (simplify reg u) with _ | c
    · rw [simplifyRoot_negate_of_constOf_none reg hc]
      exact simplify_negate_of_constOf_none reg hu hc
    · simp [simplifyRoot, hc]
  | BinaryOp op l r =>
    have hl : simplify reg (simplify reg l) = simplify reg l := by
      apply ih
      simp only [Node.BinaryOp.sizeOf_spec]
      omega
    have hr : simplify reg (simplify reg r) = simplify reg r := by
      apply ih
      simp only [Node.BinaryOp.sizeOf_spec]
      omega
    rw [simplify_binary, simplifyRoot_binary]
    rcases hcl : constOf (simplify reg l) with _ | a <;>
      rcases hcr : constOf (simplify reg r) with _ | b
    · rw [show simplifyBin op (simplify reg l) (simplify reg r)
          = .BinaryOp op (simplify reg l) (simplify reg r) by
            simp [simplifyBin, hcl, hcr]]
      rw [simplify_binary, hl, hr, simplifyRoot_binary]
      simp [simplifyBin, hcl, hcr]
    · rw [show simplifyBin op (simplify reg l) (simplify reg r)
          = rightConstRule op (simplify reg l) b by simp [simplifyBin, hcl, hcr]]
      exact simplify_rightConstRule reg op b hl hcl
    · rw [show simplifyBin op (simplify reg l) (simplify reg r)
          = leftConstRule op a (simplify reg r) by simp [simplifyBin, hcl, hcr]]
      exact simplify_leftConstRule reg op a hr hcr
    · simp [simplifyBin, hcl, hcr]
  | Call f args =>
    have hargs : simplifyList reg (simplifyList reg args) = simplifyList reg args := by
      apply simplifyList_idem_of
      intro a ha
      exact ih a (sizeOf_mem_args ha f)
    rw [simplify_call]
    rcases hf : reg f with _ | d
    · rw [show simplifyRoot reg (.Call f (simplifyList reg args))
          = .Call f (simplifyList reg args) by simp [simplifyRoot, hf]]
      rw [simplify_call, hargs]
      simp [simplifyRoot, hf]
    · rcases hc : constsOf (simplifyList reg args) with _ | vs
      · rw [show simplifyRoot reg (.Call f (simplifyList reg args))
            = .Call f (simplifyList reg args) by simp [simplifyRoot, hf, hc]]
        rw [simplify_call, hargs]
        simp [simplifyRoot, hf, hc]
      · simp [simplifyRoot, hf, hc]

/-! ### Value preservation of the simplifier -/

@[simp] lemma qpow_zero (a : ℚ) : qpow a 0 = 1 := by
  simp [qpow]

@[simp] lemma qpow_one (a : ℚ) : qpow a 1 = a := by
  simp [qpow]

@[simp] lemma eval_constant (reg : Registry) (ctx : Context) (c : ℚ) :
    evaluate reg ctx (.Constant c) = .ok c := rfl

lemma eval_variable_some (reg : Registry) {ctx : Context} {v : String} {x : ℚ}
    (h : ctx v = some x) : evaluate reg ctx (.Variable v) = .ok x := by
  simp [evaluate, h]

lemma eval_variable_none (reg : Registry) {ctx : Context} {v : String}
    (h : ctx v = none) :
    evaluate reg ctx (.Variable v) = .error (.unboundVariable v) := by
  simp [evaluate, h]

lemma eval_unary (reg : Registry) (ctx : Context) (u : Node) :
    evaluate reg ctx (.UnaryOp .Negate u)
      = (evaluate reg ctx u).bind (fun x => .ok (-x)) := rfl

lemma eval_binary (reg : Registry) (ctx : Context) (op : BOp) (l r : Node) :
    evaluate reg ctx (.BinaryOp op l r)
      = (evaluate reg ctx l).bind (fun a => (evaluate reg ctx r).bind
          (fun b => .ok (applyBOp op a b))) := rfl

lemma eval_call (reg : Registry) (ctx : Context) (f : String) (args : List Node) :
    evaluate reg ctx (.Call f args)
      = (evalArgs reg ctx args).bind (fun vs =>
          match reg f with
          | some d => .ok (d.eval vs)
          | none => .ok 0) := rfl

@[simp] lemma evalArgs_nil (reg : Registry) (ctx : Context) :
    evalArgs reg ctx [] = .ok [] := rfl

lemma evalArgs_cons (reg : Registry) (ctx : Context) (a : Node) (as : List Node) :
    evalArgs reg ctx (a :: as)
      = (evaluate reg ctx a).bind (fun v => (evalArgs reg ctx as).bind
          (fun vs => .ok (v :: vs))) := rfl

@[simp] lemma vars_constant (c : ℚ) : varsInOrder (.Constant c) = [] := rfl

@[simp] lemma vars_variable (v : String) : varsInOrder (.Variable v) = [v] := rfl

@[simp] lemma vars_unary (op : UOp) (u : Node) :
    varsInOrder (.UnaryOp op u) = varsInOrder u := rfl

@[simp] lemma vars_binary (op : BOp) (l r : Node) :
    varsInOrder (.BinaryOp op l r) = varsInOrder l ++ varsInOrder r := rfl

@[simp] lemma vars_call (f : String) (args : List Node) :
    varsInOrder (.Call f args) = varsInOrderList args := rfl

@[simp] lemma varsList_nil : varsInOrderList [] = [] := rfl

@[simp] lemma varsList_cons (a : Node) (as : List Node) :
    varsInOrderList (a :: as) = varsInOrder a ++ varsInOrderList as := rfl

lemma evalArgs_ok_of (reg : Registry) (ctx : Context) {args : List Node}
    (h : ∀ a ∈ args, ∃ q, evaluate reg ctx a = .ok q) :
    ∃ vs, evalArgs reg ctx args = .ok vs := by
  induction args with
  | nil => exact ⟨[], rfl⟩
  | cons a as iha =>
    obtain ⟨q, hq⟩ := h a (by simp)
    obtain ⟨vs, hvs⟩ := iha (fun b hb => h b (by simp [hb]))
    exact ⟨q :: vs, by simp [evalArgs_cons, hq, hvs, Except.bind]⟩

/-- Binding every variable of a tree makes evaluation succeed. -/
lemma eval_ok_of_bound (reg : Registry) (ctx : Context) : ∀ t : Node,
    (∀ v ∈ varsInOrder t, (ctx v).isSome = true) →
    ∃ q, evaluate reg ctx t = .ok q := by
  apply node_strong_ind
    (P := fun t => (∀ v ∈ varsInOrder t, (ctx v).isSome = true) →
      ∃ q, evaluate reg ctx t = .ok q)
  intro t ih hb
  cases t with
  | Constant c => exact ⟨c, rfl⟩
  | Variable v =>
    have := hb v (by simp)
    rcases hx : ctx v with _ | x
    · rw [hx] at this; simp at this
    · exact ⟨x, eval_variable_some reg hx⟩
  | UnaryOp op u =>
    cases op
    obtain ⟨q, hq⟩ := ih u (by simp only [Node.UnaryOp.sizeOf_spec]; omega)
      (fun v hv => hb v (by simpa using hv))
    exact ⟨-q, by simp [eval_unary, hq, Except.bind]⟩
  | BinaryOp op l r =>
    obtain ⟨a, ha⟩ := ih l (by simp only [Node.BinaryOp.sizeOf_spec]; omega)
      (fun v hv => hb v (by simp [hv]))
    obtain ⟨b, hbb⟩ := ih r (by simp only [Node.BinaryOp.sizeOf_spec]; omega)
      (fun v hv => hb v (by simp [hv]))
    exact ⟨applyBOp op a b, by simp [eval_binary, ha, hbb, Except.bind]⟩
  | Call f args =>
    have hargs : ∀ a ∈ args, ∃ q, evaluate reg ctx a = .ok q := by
      intro a hma
      apply ih a (sizeOf_mem_args hma f)
      intro v hv
      apply hb v
      simp only [vars_call]
      clear ih hb
      induction args with
      | nil => simp at hma
      | cons x xs ihx =>
        rcases List.mem_cons.1 hma with h1 | h1
        · subst h1; simp [hv]
        · simp [ihx h1]
    obtain ⟨vs, hvs⟩ := evalArgs_ok_of reg ctx hargs
    rcases hf : reg f with _ | d
    · exact ⟨0, by simp [eval_call, hvs, hf, Except.bind]⟩
    · exact ⟨d.eval vs, by simp [eval_call, hvs, hf, Except.bind]⟩

lemma mem_varsList_of_mem {a : Node} {args : List Node} {v : String}
    (ha : a ∈ args) (hv : v ∈ varsInOrder a) : v ∈ varsInOrderList args := by
  induction args with
  | nil => simp at ha
  | cons x xs ihx =>
    rcases List.mem_cons.1 ha with h1 | h1
    · subst h1; simp [hv]
    · simp [ihx h1]

lemma evalArgs_of_constsOf (reg : Registry) (ctx : Context) :
    ∀ {args : List Node} {vs : List ℚ}, constsOf args = some vs →
    evalArgs reg ctx args = .ok vs := by
  intro args
  induction args with
  | nil => intro vs h; simp [constsOf] at h; simp [h.symm]
  | cons a as iha =>
    intro vs h
    rcases hca : constOf a with _ | v <;> rcases hcs : constsOf as with _ | ws <;>
      simp [constsOf, hca, hcs] at h
    rw [constOf_eq_some] at hca
    subst hca
    rw [evalArgs_cons, eval_constant, iha hcs, ← h]
    rfl

lemma evalArgs_congr (reg : Registry) (ctx : Context) {args : List Node}
    (h : ∀ a ∈ args, evaluate reg ctx (simplify reg a) = evaluate reg ctx a) :
    evalArgs reg ctx (simplifyList reg args) = evalArgs reg ctx args := by
  induction args with
  | nil => simp
  | cons a as iha =>
    rw [simplifyList_cons, evalArgs_cons, evalArgs_cons, h a (by simp),
      iha (fun b hb => h b (by simp [hb]))]

lemma eval_simplifyBin (reg : Registry) (ctx : Context) {op : BOp} {l r : Node}
    {a b : ℚ} (hl : evaluate reg ctx l = .ok a) (hr : evaluate reg ctx r = .ok b) :
    evaluate reg ctx (simplifyBin op l r) = evaluate reg ctx (.BinaryOp op l r) := by
  rcases hcl : constOf l with _ | a2 <;> rcases hcr : constOf r with _ | b2
  · simp [simplifyBin, hcl, hcr]
  · rw [constOf_eq_some] at hcr
    subst hcr
    rw [eval_constant] at hr
    cases hr
    rw [show simplifyBin op l (.Constant b) = rightConstRule op l b by
      simp [simplifyBin, hcl]]
    cases op with
    | Add =>
      by_cases hb0 : b = 0 <;>
        simp [rightConstRule, hb0, eval_binary, hl, applyBOp, Except.bind]
    | Sub =>
      by_cases hb0 : b = 0 <;>
        simp [rightConstRule, hb0, eval_binary, hl, applyBOp, Except.bind]
    | Mul =>
      by_cases hb0 : b = 0
      · simp [rightConstRule, hb0, eval_binary, hl, applyBOp, Except.bind]
      · by_cases hb1 : b = 1 <;>
          simp [rightConstRule, hb0, hb1, eval_binary, hl, applyBOp, Except.bind]
    | Div => simp [rightConstRule]
    | Pow =>
      by_cases hb0 : b = 0
      · simp [rightConstRule, hb0, eval_binary, hl, applyBOp, Except.bind]
      · by_cases hb1 : b = 1 <;>
          simp [rightConstRule, hb0, hb1, eval_binary, hl, applyBOp, Except.bind]
  · rw [constOf_eq_some] at hcl
    subst hcl
    rw [eval_constant] at hl
    cases hl
    rw [show simplifyBin op (.Constant a) r = leftConstRule op a r by
      simp [simplifyBin, hcr]]
    cases op with
    | Add =>
      by_cases ha0 : a = 0 <;>
        simp [leftConstRule, ha0, eval_binary, hr, applyBOp, Except.bind]
    | Sub =>
      by_cases ha0 : a = 0 <;>
        simp [leftConstRule, ha0, eval_binary, eval_unary, hr, applyBOp, Except.bind]
    | Mul =>
      by_cases ha0 : a = 0
      · simp [leftConstRule, ha0, eval_binary, hr, applyBOp, Except.bind]
      · by_cases ha1 : a = 1 <;>
          simp [leftConstRule, ha0, ha1, eval_binary, hr, applyBOp, Except.bind]
    | Div => simp [leftConstRule]
    | Pow => simp [leftConstRule]
  · rw [constOf_eq_some] at hcl hcr
    subst hcl; subst hcr
    simp [simplifyBin, eval_binary, Except.bind]

/-- Simplification never changes the evaluated value of a tree whose free
variables are all bound in the context. -/
lemma eval_simplify_of_bound (reg : Registry) (ctx : Context) : ∀ t : Node,
    (∀ v ∈ varsInOrder t, (ctx v).isSome = true) →
    evaluate reg ctx (simplify reg t) = evaluate reg ctx t := by
  apply node_strong_ind
    (P := fun t => (∀ v ∈ varsInOrder t, (ctx v).isSome = true) →
      evaluate reg ctx (simplify reg t) = evaluate reg ctx t)
  intro t ih hb
  cases t with
  | Constant c => simp
  | Variable v => simp
  | UnaryOp op u =>
    cases op
    have hu := ih u (by simp only [Node.UnaryOp.sizeOf_spec]; omega)
      (fun v hv => hb v (by simpa using hv))
    rw [simplify_unary]
    rcases hc : constOf (simplify reg u) with _ | c
    · rw [simplifyRoot_negate_of_constOf_none reg hc, eval_unary, eval_unary, hu]
    · have hcu : evaluate reg ctx u = .ok c := by
        rw [← hu, constOf_eq_some.1 hc]
        rfl
      rw [show simplifyRoot reg (.UnaryOp .Negate (simplify reg u)) = .Constant (-c) by
        simp [simplifyRoot, hc]]
      rw [eval_constant, eval_unary, hcu]
      rfl
  | BinaryOp op l r =>
    have hlIH := ih l (by simp only [Node.BinaryOp.sizeOf_spec]; omega)
      (fun v hv => hb v (by simp [hv]))
    have hrIH := ih r (by simp only [Node.BinaryOp.sizeOf_spec]; omega)
      (fun v hv => hb v (by simp [hv]))
    obtain ⟨a, ha⟩ := eval_ok_of_bound reg ctx l (fun v hv => hb v (by simp [hv]))
    obtain ⟨b, hb2⟩ := eval_ok_of_bound reg ctx r (fun v hv => hb v (by simp [hv]))
    rw [simplify_binary, simplifyRoot_binary]
    rw [eval_simplifyBin reg ctx (a := a) (b := b) (by rw [hlIH]; exact ha)
      (by rw [hrIH]; exact hb2)]
    rw [eval_binary, eval_binary, hlIH, hrIH]
  | Call f args =>
    have ihargs : ∀ a ∈ args, evaluate reg ctx (simplify reg a) = evaluate reg ctx a := by
      intro a hma
      exact ih a (sizeOf_mem_args hma f)
        (fun v hv => hb v (by simp [mem_varsList_of_mem hma hv]))
    have hargsEq := evalArgs_congr reg ctx ihargs
    rw [simplify_call]
    rcases hf : reg f with _ | d
    · rw [show simplifyRoot reg (.Call f (simplifyList reg args))
          = .Call f (simplifyList reg args) by simp [simplifyRoot, hf]]
      rw [eval_call, eval_call, hargsEq]
    · rcases hc : constsOf (simplifyList reg args) with _ | vs
      · rw [show simplifyRoot reg (.Call f (simplifyList reg args))
            = .Call f (simplifyList reg args) by simp [simplifyRoot, hf, hc]]
        rw [eval_call, eval_call, hargsEq]
      · rw [show simplifyRoot reg (.Call f (simplifyList reg args))
            = .Constant (d.eval vs) by simp [simplifyRoot, hf, hc]]
        have h1 := evalArgs_of_constsOf reg ctx hc
        rw [eval_constant, eval_call, ← hargsEq, h1]
        simp [hf, Except.bind]

/-! ### The first unbound variable determines the evaluation error -/

/-- The predicate picking out variables absent from the context. -/
def unboundIn (ctx : Context) (v : String) : Bool := (ctx v).isNone

lemma bound_of_find?_none {ctx : Context} {vs : List String}
    (h : vs.find? (unboundIn ctx) = none) :
    ∀ v ∈ vs, (ctx v).isSome = true := by
  intro v hv
  have h1 := List.find?_eq_none.1 h v hv
  simp only [unboundIn, Option.isNone_iff_eq_none, Bool.not_eq_true,
    decide_eq_false_iff_not] at h1
  simpa [Option.isSome_iff_ne_none] using h1

lemma evalArgs_first_unbound_of (reg : Registry) (ctx : Context) {args : List Node}
    (ihm : ∀ a ∈ args, ∀ y, (varsInOrder a).find? (unboundIn ctx) = some y →
      evaluate reg ctx a = .error (.unboundVariable y)) :
    ∀ x, (varsInOrderList args).find? (unboundIn ctx) = some x →
      evalArgs reg ctx args = .error (.unboundVariable x) := by
  induction args with
  | nil => intro x hx; simp at hx
  | cons a as iha =>
    intro x hx
    rw [varsList_cons, List.find?_append] at hx
    rcases h1 : (varsInOrder a).find? (unboundIn ctx) with _ | y
    · have hbound := bound_of_find?_none h1
      obtain ⟨q, hq⟩ := eval_ok_of_bound reg ctx a hbound
      rw [h1] at hx
      simp only [Option.none_or] at hx
      rw [evalArgs_cons, hq,
        iha (fun b hb => ihm b (by simp [hb])) x hx]
      rfl
    · rw [h1] at hx
      have h2 : y = x := Option.some.inj hx
      rw [evalArgs_cons, ihm a (by simp) y h1, ← h2]
      rfl

/-- Evaluation fails with `UnboundVariableError` naming the first variable, in
the evaluator's left-to-right traversal order, that is absent from the
context. -/
lemma eval_first_unbound (reg : Registry) (ctx : Context) : ∀ t : Node, ∀ x,
    (varsInOrder t).find? (unboundIn ctx) = some x →
    evaluate reg ctx t = .error (.unboundVariable x) := by
  apply node_strong_ind
    (P := fun t => ∀ x, (varsInOrder t).find? (unboundIn ctx) = some x →
      evaluate reg ctx t = .error (.unboundVariable x))
  intro t ih x hf
  cases t with
  | Constant c => simp at hf
  | Variable v =>
    rw [vars_variable] at hf
    rcases hc : ctx v with _ | q
    · have : v = x := by
        simpa [List.find?, unboundIn, hc] using hf
      subst this
      exact eval_variable_none reg hc
    · simp [List.find?, unboundIn, hc] at hf
  | UnaryOp op u =>
    cases op
    rw [eval_unary, ih u (by simp only [Node.UnaryOp.sizeOf_spec]; omega) x
      (by simpa using hf)]
    rfl
  | BinaryOp op l r =>
    rw [vars_binary, List.find?_append] at hf
    rcases h1 : (varsInOrder l).find? (unboundIn ctx) with _ | y
    · have hbound := bound_of_find?_none h1
      obtain ⟨a, ha⟩ := eval_ok_of_bound reg ctx l hbound
      rw [h1] at hf
      simp only [Option.none_or] at hf
      rw [eval_binary, ha,
        ih r (by simp only [Node.BinaryOp.sizeOf_spec]; omega) x hf]
      rfl
    · rw [h1] at hf
      have h2 : y = x := Option.some.inj hf
      rw [eval_binary, ih l (by simp only [Node.BinaryOp.sizeOf_spec]; omega) y h1,
        ← h2]
      rfl
  | Call f args =>
    rw [vars_call] at hf
    have hargs := evalArgs_first_unbound_of reg ctx
      (fun a ha y hy => ih a (sizeOf_mem_args ha f) y hy) x hf
    rw [eval_call, hargs]
    rfl

/-! ### Arithmetic facts about the built-in square root -/

lemma qsqrt_nine : qsqrt 9 = 3 := by
  have h9 : Nat.sqrt 9 = 3 := Nat.sqrt_eq 3
  have e1 : (9 : ℚ).num.toNat = 9 := rfl
  have e2 : (9 : ℚ).den = 1 := rfl
  have h1 : Nat.sqrt 1 = 1 := Nat.sqrt_eq 1
  rw [qsqrt, if_pos]
  · rw [e1, e2, h9, h1]
    norm_num
  · refine ⟨by norm_num, ?_, ?_⟩
    · rw [e1, h9]
    · rw [e2, h1]

/-! ### Claim theorems for the expression engine -/

/-- C1: for every expression tree `t` and every evaluation context binding
all free variables of `t`, `evaluate (simplify t) ctx = evaluate t ctx` —
simplification never changes the evaluated value of a tree.  The witness
exercises the `Pow(u, 0) → Constant(1)` collapse at `u = 0` (in the `ℚ`
model, as with `std::pow`, `0^0 = 1`). -/
theorem evaluate_simplify_eq (reg : Registry) (ctx : Context) (t : Node)
    (h : ∀ v ∈ varsInOrder t, (ctx v).isSome = true) :
    evaluate reg ctx (simplify reg t) = evaluate reg ctx t :=
  eval_simplify_of_bound reg ctx t h

/-- Witness for C1 at the tree `x^0` with `x` bound to 0. -/
theorem evaluate_simplify_eq_witness :
    (∀ v ∈ varsInOrder powX0, (ctxX0 v).isSome = true)
      ∧ evaluate stdReg ctxX0 (simplify stdReg powX0) = evaluate stdReg ctxX0 powX0 :=
  ⟨by decide, evaluate_simplify_eq stdReg ctxX0 powX0 (by decide)⟩

/-- C2: the simplifier is idempotent — `simplify (simplify t)` is
structurally equal to `simplify t` for every tree `t`. -/
theorem simplify_idempotent (reg : Registry) (t : Node) :
    simplify reg (simplify reg t) = simplify reg t :=
  simplify_idem reg t

/-- C3: differentiation is total — for every expression tree and variable
name it returns an expression tree (its codomain is `Node`, with no error
case; Lean's acceptance of the recursive definitions is the termination
proof), and likewise the simplifier always returns a tree. -/
theorem differentiate_total (reg : Registry) (t : Node) (x : String) :
    (∃ r : Node, differentiate reg t x = r) ∧ (∃ u : Node, simplify reg t = u) :=
  ⟨⟨differentiate reg t x, rfl⟩, ⟨simplify reg t, rfl⟩⟩

/-- C4: the base differentiation rules after simplification —
`differentiate (Constant c) x = Constant 0`,
`differentiate (Variable x) x = Constant 1`, and
`differentiate (Variable y) x = Constant 0` for `y ≠ x`. -/
theorem differentiate_base_rules (reg : Registry) (c : ℚ) (x y : String)
    (h : y ≠ x) :
    differentiate reg (.Constant c) x = .Constant 0
      ∧ differentiate reg (.Variable x) x = .Constant 1
      ∧ differentiate reg (.Variable y) x = .Constant 0 := by
  refine ⟨?_, ?_, ?_⟩
  · simp [differentiate, diffRaw]
  · simp [differentiate, diffRaw]
  · simp [differentiate, diffRaw, h]

/-- Witness for C4 at `c = 5`, `x = "x"`, `y = "y"`. -/
theorem differentiate_base_rules_witness :
    ("y" : String) ≠ "x"
      ∧ (differentiate stdReg (.Constant 5) "x" = .Constant 0
          ∧ differentiate stdReg (.Variable "x") "x" = .Constant 1
          ∧ differentiate stdReg (.Variable "y") "x" = .Constant 0) :=
  ⟨by decide, differentiate_base_rules stdReg 5 "x" "y" (by decide)⟩

/-- C5: function-call resolution happens at parse time with two distinct,
identifiable error kinds — for any registry in which `bogus` is absent,
`parse "bogus(1,2)"` fails with `UnknownFunctionError`, and for any registry
in which `pow2` is registered with arity 1 (and any evaluation/derivative
behavior), `parse "pow2(1,2)"` fails with `ArityMismatchError`; both
failures are deterministic since `parse` is a function. -/
theorem parse_call_resolution_errors (reg : Registry) (ev : List ℚ → ℚ)
    (dv : Nat → Node) :
    parse (fun n => if n = "bogus" then none else reg n) "bogus(1,2)"
        = .error (.unknownFunction "bogus")
      ∧ parse (fun n => if n = "pow2" then some ⟨1, ev, dv⟩ else reg n) "pow2(1,2)"
        = .error (.arityMismatch "pow2" 1 2) :=
  ⟨rfl, rfl⟩

/-- C6: evaluating a tree containing a variable absent from the context
fails with `UnboundVariableError` naming the first such variable in the
evaluator's left-to-right traversal order. -/
theorem evaluate_unbound_error (reg : Registry) (ctx : Context) (t : Node)
    (x : String) (h : (varsInOrder t).find? (unboundIn ctx) = some x) :
    evaluate reg ctx t = .error (.unboundVariable x) :=
  eval_first_unbound reg ctx t x h

/-- Witness for C6: `parse "x+1"` evaluated in the empty context fails
naming `x`. -/
theorem evaluate_unbound_error_witness :
    ((varsInOrder xPlusOne).find? (unboundIn emptyCtx) = some "x")
      ∧ parse stdReg "x+1" = .ok xPlusOne
      ∧ evaluate stdReg emptyCtx xPlusOne = .error (.unboundVariable "x") :=
  ⟨rfl, rfl, evaluate_unbound_error stdReg emptyCtx xPlusOne "x" rfl⟩

/-- C7: parsing a dotted-identifier variable name succeeds without
throwing — the dotted name is one opaque `Variable`, for any registry. -/
theorem parse_dotted_identifier (reg : Registry) :
    parse reg "state.muscle1.activation^2"
      = .ok (.BinaryOp .Pow (.Variable "state.muscle1.activation") (.Constant 2)) :=
  rfl

/-- C8: evaluate composed with parse matches the hand-computed closed forms
of the repository test — `parse("sqrt(9)-1").evaluate({}) = 2` and
`parse("sqrt(x)-1").evaluate({x: 9}) = 2`, exactly in the `ℚ` model. -/
theorem evaluate_parse_examples :
    parseAndEvaluate stdReg "sqrt(9)-1" emptyCtx = some 2
      ∧ parseAndEvaluate stdReg "sqrt(x)-1" ctxX9 = some 2 := by
  constructor
  · have hp : parseAndEvaluate stdReg "sqrt(9)-1" emptyCtx
        = match (Except.ok (applyBOp .Sub (qsqrt 9) 1) : Except EvalErr ℚ) with
          | Except.error _ => (none : Option ℚ)
          | Except.ok q => some q := rfl
    rw [hp, qsqrt_nine]
    norm_num [applyBOp]
  · have hp : parseAndEvaluate stdReg "sqrt(x)-1" ctxX9
        = match (Except.ok (applyBOp .Sub (qsqrt 9) 1) : Except EvalErr ℚ) with
          | Except.error _ => (none : Option ℚ)
          | Except.ok q => some q := rfl
    rw [hp, qsqrt_nine]
    norm_num [applyBOp]

end Lepton

namespace OpenSim

/-! ### Claim theorems for FunctionBasedPath -/

/-- C9: two independent properties of every path and state — when
`moment_arm_functions` is empty, `computeMomentArm` is the partial derivative
of the length function with respect to that coordinate's value; and when
`speed_function` is absent (regardless of whether moment-arm functions are
provided), `getLengtheningSpeed` is the dot product of the moment arms with
the coordinate speeds (chain rule). -/
theorem momentArm_speed_defaults {n : Nat} (p : FunctionBasedPath n)
    (s : SimState n) (coord : Fin n) :
    (p.moment_arm_functions = [] →
      computeMomentArm p s coord = p.length_function.deriv coord s.q)
      ∧ (p.speed_function = none →
        getLengtheningSpeed p s
          = ∑ i : Fin n, computeMomentArm p s i * s.u i) := by
  constructor
  · intro h1
    simp [computeMomentArm, computeMomentArms, h1]
  · intro h2
    simp [getLengtheningSpeed, h2, computeMomentArm]

/-- Witness for C9 at two concrete one-coordinate paths: `pathEx` (no
moment-arm functions, no speed function) exercises both halves, and `pathEx2`
(a moment-arm function provided, no speed function) exercises the speed half
on its own. -/
theorem momentArm_speed_defaults_witness :
    pathEx.moment_arm_functions = [] ∧ pathEx.speed_function = none
      ∧ pathEx2.speed_function = none
      ∧ computeMomentArm pathEx stateEx 0 = pathEx.length_function.deriv 0 stateEx.q
      ∧ getLengtheningSpeed pathEx stateEx
          = ∑ i : Fin 1, computeMomentArm pathEx stateEx i * stateEx.u i
      ∧ getLengtheningSpeed pathEx2 stateEx
          = ∑ i : Fin 1, computeMomentArm pathEx2 stateEx i * stateEx.u i :=
  ⟨rfl, rfl, rfl,
    (momentArm_speed_defaults pathEx stateEx 0).1 rfl,
    (momentArm_speed_defaults pathEx stateEx 0).2 rfl,
    (momentArm_speed_defaults pathEx2 stateEx 0).2 rfl⟩

/-- C10: `isVisualPath` returns `false` for every `FunctionBasedPath`
instance in every state. -/
theorem isVisualPath_false {n : Nat} (p : FunctionBasedPath n) (_s : SimState n) :
    isVisualPath p = false :=
  rfl

end OpenSim
